import Mathlib

/-!
Verification of the releaseracer polling core against its specification.

The embedding models, from the source:
  * the two fixed regular expressions (`SCRIPT_TAG_REGEX`, `RELEASE_BUILD_REGEX`)
    of `releaseracer/cogs/poller/constants.py`, as executable matchers over
    character lists, together with declarative characterisations of a match;
  * `JSONStorage.get` / `JSONStorage.put` of `releaseracer/storage.py`
    (a Python dict held in memory, written through on every `put`);
  * `ReleaseTracker.track` of `releaseracer/cogs/poller/types.py`;
  * `Poller.get_login_page`, `Poller.get_asset_url` and the pure core of
    `Poller.get_release_build_information` of `releaseracer/cogs/poller/cog.py`,
    with the two HTTP bodies and the status line passed in as parameters;
  * the polling loop `Poller._make_poller._poll`, as a function from the
    sequence of fetch outcomes to the trace of emitted events;
  * `Notifier.on_new_build` of `releaseracer/cogs/notifier.py`, with channel
    resolution and delivery outcomes passed in as parameters.

Both regexes in the source have the shape
`lit1 (cls1+) lit2 (cls2+) lit3` where `lit2` starts with a character outside
`cls1` and `lit3` starts with a character outside `cls2`; for such patterns
the greedy scan is exact (no backtracking can produce a different match), so
an anchored matcher built from `takeWhile` is a faithful model of the Python
`re` behaviour.  `LitPattern` captures this shape once for both.
-/

set_option maxRecDepth 10000

/-- Strips a literal prefix `lit` from `cs`; `some rest` on success.
Used to model the literal pieces of the anchored regexes. -/
def stripLit : List Char → List Char → Option (List Char)
  | [], cs => some cs
  | _ :: _, [] => none
  | l :: ls, c :: cs => if c = l then stripLit ls cs else none

theorem stripLit_eq_some {lit cs rest : List Char} :
    stripLit lit cs = some rest ↔ cs = lit ++ rest := by
  induction lit generalizing cs with
  | nil =>
    simp [stripLit]
  | cons l ls ih =>
    cases cs with
    | nil => simp [stripLit]
    | cons c cs =>
      by_cases h : c = l
      · subst h
        simp [stripLit, ih]
      · simp [stripLit, h]

/-- `takeWhile`/`dropWhile` on a block that fully satisfies `p` followed by a
character that does not: the greedy scan stops exactly at the block boundary. -/
theorem takeWhile_block {p : Char → Bool} {h : List Char} {d : Char} {t : List Char}
    (hall : ∀ c ∈ h, p c) (hd : p d = false) :
    (h ++ d :: t).takeWhile p = h ∧ (h ++ d :: t).dropWhile p = d :: t := by
  induction h with
  | nil => simp [List.takeWhile, List.dropWhile, hd]
  | cons a h ih =>
    have ha : p a = true := hall a (by simp)
    have ih' := ih (fun c hc => hall c (by simp [hc]))
    simp [List.takeWhile, List.dropWhile, ha, ih'.1, ih'.2]

/-- Shape shared by `SCRIPT_TAG_REGEX` and `RELEASE_BUILD_REGEX`:
three literal pieces around two one-or-more character-class groups. -/
structure LitPattern where
  lit1 : List Char
  lit2 : List Char
  lit3 : List Char
  cls1 : Char → Bool
  cls2 : Char → Bool

/-- The text of one full match with group contents `a` and `b`. -/
def LitPattern.inst (P : LitPattern) (a b : List Char) : List Char :=
  P.lit1 ++ a ++ P.lit2 ++ b ++ P.lit3

/-- Declarative reading: the pattern matches at offset `i` of `cs` with group
contents `a` and `b`. -/
def LitPattern.MatchAt (P : LitPattern) (cs : List Char) (i : Nat) (a b : List Char) : Prop :=
  a ≠ [] ∧ (∀ c ∈ a, P.cls1 c) ∧ b ≠ [] ∧ (∀ c ∈ b, P.cls2 c) ∧
    ∃ rest, cs.drop i = P.inst a b ++ rest

/-- Anchored matcher at the head of `cs`; returns the two group contents and
the remaining text after the match. -/
def LitPattern.matchAt (P : LitPattern) (cs : List Char) :
    Option ((List Char × List Char) × List Char) :=
  match stripLit P.lit1 cs with
  | none => none
  | some cs1 =>
    let a := cs1.takeWhile P.cls1
    let cs2 := cs1.dropWhile P.cls1
    if a.isEmpty then none else
    match stripLit P.lit2 cs2 with
    | none => none
    | some cs3 =>
      let b := cs3.takeWhile P.cls2
      let cs4 := cs3.dropWhile P.cls2
      if b.isEmpty then none else
      match stripLit P.lit3 cs4 with
      | none => none
      | some rest => some ((a, b), rest)

theorem LitPattern.matchAt_sound {P : LitPattern} {cs a b rest : List Char}
    (hm : P.matchAt cs = some ((a, b), rest)) :
    a ≠ [] ∧ (∀ c ∈ a, P.cls1 c) ∧ b ≠ [] ∧ (∀ c ∈ b, P.cls2 c) ∧
      cs = P.inst a b ++ rest := by
  unfold LitPattern.matchAt at hm
  cases h1 : stripLit P.lit1 cs with
  | none => rw [h1] at hm; exact absurd hm (by simp)
  | some cs1 =>
    rw [h1] at hm
    simp only at hm
    by_cases he : (cs1.takeWhile P.cls1).isEmpty
    · rw [if_pos he] at hm; exact absurd hm (by simp)
    · rw [if_neg he] at hm
      cases h2 : stripLit P.lit2 (cs1.dropWhile P.cls1) with
      | none => rw [h2] at hm; exact absurd hm (by simp)
      | some cs3 =>
        rw [h2] at hm
        simp only at hm
        by_cases hi : (cs3.takeWhile P.cls2).isEmpty
        · rw [if_pos hi] at hm; exact absurd hm (by simp)
        · rw [if_neg hi] at hm
          cases h3 : stripLit P.lit3 (cs3.dropWhile P.cls2) with
          | none => rw [h3] at hm; exact absurd hm (by simp)
          | some rest' =>
            rw [h3] at hm
            simp only [Option.some.injEq, Prod.mk.injEq] at hm
            obtain ⟨⟨hha, hhb⟩, hr⟩ := hm
            subst hha; subst hhb; subst hr
            refine ⟨?_, ?_, ?_, ?_, ?_⟩
            · simpa [List.isEmpty_iff] using he
            · intro c hc; exact List.mem_takeWhile_imp hc
            · simpa [List.isEmpty_iff] using hi
            · intro c hc; exact List.mem_takeWhile_imp hc
            · have e1 : cs = P.lit1 ++ cs1 := stripLit_eq_some.mp h1
              have e2 : cs1.dropWhile P.cls1 = P.lit2 ++ cs3 := stripLit_eq_some.mp h2
              have e3 : cs3.dropWhile P.cls2 = P.lit3 ++ rest' := stripLit_eq_some.mp h3
              have e4 : cs1 = cs1.takeWhile P.cls1 ++ cs1.dropWhile P.cls1 :=
                (List.takeWhile_append_dropWhile ..).symm
              have e5 : cs3 = cs3.takeWhile P.cls2 ++ cs3.dropWhile P.cls2 :=
                (List.takeWhile_append_dropWhile ..).symm
              have e5' : cs3 = cs3.takeWhile P.cls2 ++ (P.lit3 ++ rest') := by
                conv_lhs => rw [e5]
                rw [e3]
              have e4' : cs1 = cs1.takeWhile P.cls1 ++ (P.lit2 ++ cs3) := by
                conv_lhs => rw [e4]
                rw [e2]
              rw [e1]
              conv_lhs => rw [e4']
              conv_lhs => rw [e5']
              simp [LitPattern.inst, List.append_assoc]

/-- Well-formedness making the greedy scan exact: the literal after each group
starts with a character outside the group's class, and the leading literal is
nonempty (so a match consumes at least one character). -/
def LitPattern.Exact (P : LitPattern) : Prop :=
  P.lit1 ≠ [] ∧
  (∃ t, P.lit2 = P.lit2.headI :: t ∧ P.cls1 P.lit2.headI = false) ∧
  (∃ t, P.lit3 = P.lit3.headI :: t ∧ P.cls2 P.lit3.headI = false)

theorem LitPattern.matchAt_inst {P : LitPattern} (hP : P.Exact)
    {a b rest : List Char} (ha : a ≠ []) (hca : ∀ c ∈ a, P.cls1 c)
    (hb : b ≠ []) (hcb : ∀ c ∈ b, P.cls2 c) :
    P.matchAt (P.inst a b ++ rest) = some ((a, b), rest) := by
  obtain ⟨-, ⟨t2, hl2, hc2⟩, ⟨t3, hl3, hc3⟩⟩ := hP
  have s1 : stripLit P.lit1 (P.inst a b ++ rest)
      = some (a ++ (P.lit2 ++ (b ++ (P.lit3 ++ rest)))) :=
    stripLit_eq_some.mpr (by simp [LitPattern.inst, List.append_assoc])
  have shape1 : a ++ (P.lit2 ++ (b ++ (P.lit3 ++ rest)))
      = a ++ P.lit2.headI :: (t2 ++ (b ++ (P.lit3 ++ rest))) := by
    conv_lhs => rw [hl2]
    simp
  have tw1 := takeWhile_block (p := P.cls1) (h := a)
    (d := P.lit2.headI) (t := t2 ++ (b ++ (P.lit3 ++ rest))) hca hc2
  have s2 : stripLit P.lit2 (P.lit2.headI :: (t2 ++ (b ++ (P.lit3 ++ rest))))
      = some (b ++ (P.lit3 ++ rest)) := by
    apply stripLit_eq_some.mpr
    conv_rhs => rw [hl2]
    simp
  have shape2 : b ++ (P.lit3 ++ rest) = b ++ P.lit3.headI :: (t3 ++ rest) := by
    conv_lhs => rw [hl3]
    simp
  have tw2 := takeWhile_block (p := P.cls2) (h := b)
    (d := P.lit3.headI) (t := t3 ++ rest) hcb hc3
  have s3 : stripLit P.lit3 (P.lit3.headI :: (t3 ++ rest)) = some rest := by
    apply stripLit_eq_some.mpr
    conv_rhs => rw [hl3]
    simp
  unfold LitPattern.matchAt
  rw [s1]
  simp only
  rw [shape1, tw1.1, tw1.2]
  rw [if_neg (by simpa [List.isEmpty_iff] using ha)]
  rw [s2]
  simp only
  rw [shape2, tw2.1, tw2.2]
  rw [if_neg (by simpa [List.isEmpty_iff] using hb)]
  rw [s3]

theorem LitPattern.matchAt_of_matchAt_zero {P : LitPattern} (hP : P.Exact)
    {cs a b : List Char} (h : P.MatchAt cs 0 a b) :
    ∃ rest, P.matchAt cs = some ((a, b), rest) := by
  obtain ⟨ha, hca, hb, hcb, rest, hdrop⟩ := h
  rw [List.drop_zero] at hdrop
  exact ⟨rest, by rw [hdrop]; exact LitPattern.matchAt_inst hP ha hca hb hcb⟩

theorem LitPattern.matchAt_to_matchAt_zero {P : LitPattern} {cs a b rest : List Char}
    (hm : P.matchAt cs = some ((a, b), rest)) : P.MatchAt cs 0 a b := by
  obtain ⟨ha, hca, hb, hcb, he⟩ := LitPattern.matchAt_sound hm
  exact ⟨ha, hca, hb, hcb, rest, by simpa using he⟩

theorem LitPattern.not_matchAt_nil {P : LitPattern} (hP : P.Exact)
    {i : Nat} {a b : List Char} : ¬ P.MatchAt [] i a b := by
  rintro ⟨-, -, -, -, rest, hdrop⟩
  obtain ⟨h1, -, -⟩ := hP
  rw [List.drop_nil] at hdrop
  cases hl : P.lit1 with
  | nil => exact h1 hl
  | cons c t =>
    rw [LitPattern.inst, hl] at hdrop
    simp at hdrop

theorem LitPattern.matchAt_cons {P : LitPattern} {c : Char} {cs : List Char}
    {i : Nat} {a b : List Char} (h : P.MatchAt cs i a b) :
    P.MatchAt (c :: cs) (i + 1) a b := by
  obtain ⟨ha, hca, hb, hcb, rest, hdrop⟩ := h
  exact ⟨ha, hca, hb, hcb, rest, by simp only [List.drop_succ_cons]; exact hdrop⟩

theorem LitPattern.matchAt_cons_inv {P : LitPattern} {c : Char} {cs : List Char}
    {i : Nat} {a b : List Char} (h : P.MatchAt (c :: cs) (i + 1) a b) :
    P.MatchAt cs i a b := by
  obtain ⟨ha, hca, hb, hcb, rest, hdrop⟩ := h
  exact ⟨ha, hca, hb, hcb, rest, by
    simp only [List.drop_succ_cons] at hdrop
    exact hdrop⟩

theorem drop_length_add {α : Type} (pre t : List α) (i : Nat) :
    (pre ++ t).drop (pre.length + i) = t.drop i := by
  induction pre with
  | nil => simp
  | cons c pre ih =>
    simp only [List.length_cons, List.cons_append]
    rw [Nat.add_right_comm, List.drop_succ_cons]
    exact ih

theorem LitPattern.matchAt_append_left {P : LitPattern} {pre t : List Char}
    {i : Nat} {a b : List Char} (h : P.MatchAt t i a b) :
    P.MatchAt (pre ++ t) (pre.length + i) a b := by
  obtain ⟨ha, hca, hb, hcb, rest, hdrop⟩ := h
  exact ⟨ha, hca, hb, hcb, rest, by rw [drop_length_add]; exact hdrop⟩

theorem LitPattern.inst_length_pos {P : LitPattern} {a b : List Char} (ha : a ≠ []) :
    0 < (P.inst a b).length := by
  have := List.length_pos.mpr ha
  simp only [LitPattern.inst, List.length_append]
  omega

/-- Non-overlapping left-to-right scan collecting, for every match, the group
selected by `f` — Python `re.findall` for a one-group pattern.  `fuel` bounds
the number of scan steps; every step strictly shortens the text, so
`fuel = cs.length` is always sufficient. -/
def litFindAllAux (P : LitPattern) (f : List Char × List Char → List Char) :
    Nat → List Char → List (List Char)
  | 0, _ => []
  | _ + 1, [] => []
  | fuel + 1, c :: cs =>
    match P.matchAt (c :: cs) with
    | some (ab, rest) => f ab :: litFindAllAux P f fuel rest
    | none => litFindAllAux P f fuel cs

/-- `re.findall` over the whole text. -/
def litFindAll (P : LitPattern) (f : List Char × List Char → List Char)
    (cs : List Char) : List (List Char) :=
  litFindAllAux P f cs.length cs

/-- Left-to-right search for the first match — Python `re.search`. -/
def litSearchAux (P : LitPattern) (f : List Char × List Char → List Char) :
    Nat → List Char → Option (List Char)
  | 0, _ => none
  | _ + 1, [] => none
  | fuel + 1, c :: cs =>
    match P.matchAt (c :: cs) with
    | some (ab, _) => some (f ab)
    | none => litSearchAux P f fuel cs

/-- `re.search` over the whole text. -/
def litSearch (P : LitPattern) (f : List Char × List Char → List Char)
    (cs : List Char) : Option (List Char) :=
  litSearchAux P f cs.length cs

/-- Every element produced by the scan is the selected group of an actual
match, and the matches occur at strictly increasing offsets (document
order). -/
theorem litFindAllAux_sound (P : LitPattern) (f : List Char × List Char → List Char) :
    ∀ fuel cs, ∃ ps : List Nat,
      ps.length = (litFindAllAux P f fuel cs).length ∧ List.Chain' (· < ·) ps ∧
      ∀ q ∈ ps.zip (litFindAllAux P f fuel cs),
        ∃ a b, P.MatchAt cs q.1 a b ∧ q.2 = f (a, b) := by
  intro fuel
  induction fuel with
  | zero => intro cs; exact ⟨[], by simp [litFindAllAux]⟩
  | succ fuel ih =>
    intro cs
    cases cs with
    | nil => exact ⟨[], by simp [litFindAllAux]⟩
    | cons c cs =>
      cases hm : P.matchAt (c :: cs) with
      | none =>
        obtain ⟨ps, hlen, hchain, hmem⟩ := ih cs
        refine ⟨ps.map (· + 1), ?_, ?_, ?_⟩
        · simp [litFindAllAux, hm, hlen]
        · rw [List.chain'_map]
          exact hchain.imp (fun hab => by omega)
        · intro q hq
          simp only [litFindAllAux, hm] at hq
          rw [List.zip_map_left] at hq
          obtain ⟨⟨p, x⟩, hpx, hq⟩ := List.mem_map.mp hq
          subst hq
          obtain ⟨a, b, hM, hx⟩ := hmem _ hpx
          exact ⟨a, b, LitPattern.matchAt_cons hM, hx⟩
      | some abrest =>
        obtain ⟨ab, rest⟩ := abrest
        obtain ⟨a, b⟩ := ab
        have hs := LitPattern.matchAt_sound hm
        have hsplit : c :: cs = P.inst a b ++ rest := hs.2.2.2.2
        have hpos : 0 < (P.inst a b).length := LitPattern.inst_length_pos hs.1
        obtain ⟨ps, hlen, hchain, hmem⟩ := ih rest
        refine ⟨0 :: ps.map (fun p => (P.inst a b).length + p), ?_, ?_, ?_⟩
        · simp [litFindAllAux, hm, hlen]
        · rw [List.chain'_cons']
          constructor
          · intro y hy
            cases ps with
            | nil => simp at hy
            | cons p ps =>
              simp only [List.map_cons, List.head?_cons, Option.mem_def,
                Option.some.injEq] at hy
              omega
          · rw [List.chain'_map]
            exact hchain.imp (fun hab => by omega)
        · intro q hq
          simp only [litFindAllAux, hm] at hq
          rw [List.zip_cons_cons] at hq
          rcases List.mem_cons.mp hq with hq | hq
          · subst hq
            exact ⟨a, b, LitPattern.matchAt_to_matchAt_zero hm, rfl⟩
          · rw [List.zip_map_left] at hq
            obtain ⟨⟨p, x⟩, hpx, hq⟩ := List.mem_map.mp hq
            subst hq
            obtain ⟨a', b', hM, hx⟩ := hmem _ hpx
            refine ⟨a', b', ?_, hx⟩
            rw [hsplit]
            exact LitPattern.matchAt_append_left hM

/-- If the pattern matches anywhere, the scan finds at least one match. -/
theorem litFindAllAux_ne_nil {P : LitPattern} (hP : P.Exact)
    (f : List Char × List Char → List Char) :
    ∀ fuel cs i a b, cs.length ≤ fuel → P.MatchAt cs i a b →
      litFindAllAux P f fuel cs ≠ [] := by
  intro fuel
  induction fuel with
  | zero =>
    intro cs i a b hlen hM
    have : cs = [] := List.eq_nil_of_length_eq_zero (Nat.le_zero.mp hlen)
    subst this
    exact absurd hM (LitPattern.not_matchAt_nil hP)
  | succ fuel ih =>
    intro cs i a b hlen hM
    cases cs with
    | nil => exact absurd hM (LitPattern.not_matchAt_nil hP)
    | cons c cs =>
      cases hm : P.matchAt (c :: cs) with
      | some abrest =>
        obtain ⟨ab, rest⟩ := abrest
        simp [litFindAllAux, hm]
      | none =>
        cases i with
        | zero =>
          obtain ⟨rest, hsome⟩ := LitPattern.matchAt_of_matchAt_zero hP hM
          rw [hm] at hsome
          exact absurd hsome (by simp)
        | succ i =>
          have hM' := LitPattern.matchAt_cons_inv hM
          have hlen' : cs.length ≤ fuel := by
            simpa [Nat.succ_le_succ_iff] using hlen
          simpa [litFindAllAux, hm] using ih cs i a b hlen' hM'

/-- Every value returned by the search is the selected group of an actual
match. -/
theorem litSearchAux_sound {P : LitPattern} {f : List Char × List Char → List Char} :
    ∀ fuel cs v, litSearchAux P f fuel cs = some v →
      ∃ i a b, P.MatchAt cs i a b ∧ v = f (a, b) := by
  intro fuel
  induction fuel with
  | zero => intro cs v h; exact absurd h (by simp [litSearchAux])
  | succ fuel ih =>
    intro cs v h
    cases cs with
    | nil => exact absurd h (by simp [litSearchAux])
    | cons c cs =>
      cases hm : P.matchAt (c :: cs) with
      | some abrest =>
        obtain ⟨⟨a, b⟩, rest⟩ := abrest
        simp only [litSearchAux, hm, Option.some.injEq] at h
        exact ⟨0, a, b, LitPattern.matchAt_to_matchAt_zero hm, h.symm⟩
      | none =>
        simp only [litSearchAux, hm] at h
        obtain ⟨i, a, b, hM, hv⟩ := ih cs v h
        exact ⟨i + 1, a, b, LitPattern.matchAt_cons hM, hv⟩

/-- If the pattern matches anywhere, the search succeeds. -/
theorem litSearchAux_isSome {P : LitPattern} (hP : P.Exact)
    (f : List Char × List Char → List Char) :
    ∀ fuel cs i a b, cs.length ≤ fuel → P.MatchAt cs i a b →
      (litSearchAux P f fuel cs).isSome := by
  intro fuel
  induction fuel with
  | zero =>
    intro cs i a b hlen hM
    have : cs = [] := List.eq_nil_of_length_eq_zero (Nat.le_zero.mp hlen)
    subst this
    exact absurd hM (LitPattern.not_matchAt_nil hP)
  | succ fuel ih =>
    intro cs i a b hlen hM
    cases cs with
    | nil => exact absurd hM (LitPattern.not_matchAt_nil hP)
    | cons c cs =>
      cases hm : P.matchAt (c :: cs) with
      | some abrest =>
        obtain ⟨ab, rest⟩ := abrest
        simp [litSearchAux, hm]
      | none =>
        cases i with
        | zero =>
          obtain ⟨rest, hsome⟩ := LitPattern.matchAt_of_matchAt_zero hP hM
          rw [hm] at hsome
          exact absurd hsome (by simp)
        | succ i =>
          have hM' := LitPattern.matchAt_cons_inv hM
          have hlen' : cs.length ≤ fuel := by
            simpa [Nat.succ_le_succ_iff] using hlen
          simpa [litSearchAux, hm] using ih cs i a b hlen' hM'

/-- Character class `[a-f0-9]` of `SCRIPT_TAG_REGEX`. -/
def isLowerHexDigit (c : Char) : Bool :=
  (('a' ≤ c) && (c ≤ 'f')) || (('0' ≤ c) && (c ≤ '9'))

/-- Character class `[^>]` of `SCRIPT_TAG_REGEX`. -/
def notGt (c : Char) : Bool := c != '>'

/-- Character class `[a-z]` of `RELEASE_BUILD_REGEX`. -/
def isLowerAlpha (c : Char) : Bool := ('a' ≤ c) && (c ≤ 'z')

/-- `SCRIPT_TAG_REGEX` of `releaseracer/cogs/poller/constants.py`, decomposed
into its literal pieces and classes; the capture group is the first class
run (the hex asset hash). -/
def SCRIPT_TAG_REGEX : LitPattern :=
  { lit1 := "<script src=\"/assets/".data
    lit2 := ".js\" ".data
    lit3 := "></script>".data
    cls1 := isLowerHexDigit
    cls2 := notGt }

/-- `RELEASE_BUILD_REGEX` of `releaseracer/cogs/poller/constants.py`; the
capture group is the second class run (the digit run after the word
release). -/
def RELEASE_BUILD_REGEX : LitPattern :=
  { lit1 := "\x7benvironment:\"".data
    lit2 := "\",release:\"".data
    lit3 := "\",ign".data
    cls1 := isLowerAlpha
    cls2 := Char.isDigit }

theorem SCRIPT_TAG_REGEX_exact : SCRIPT_TAG_REGEX.Exact := by
  refine ⟨by decide, ⟨"js\" ".data, by decide, by decide⟩,
    ⟨"</script>".data, by decide, by decide⟩⟩

theorem RELEASE_BUILD_REGEX_exact : RELEASE_BUILD_REGEX.Exact := by
  refine ⟨by decide, ⟨",release:\"".data, by decide, by decide⟩,
    ⟨",ign".data, by decide, by decide⟩⟩

/-- `SCRIPT_TAG_REGEX` matches at offset `i` with captured hash `h`. -/
def ScriptTagAt (cs : List Char) (i : Nat) (h : List Char) : Prop :=
  ∃ inner, SCRIPT_TAG_REGEX.MatchAt cs i h inner

/-- `RELEASE_BUILD_REGEX` matches at offset `i` with captured build id `b`. -/
def BuildMarkerAt (cs : List Char) (i : Nat) (b : List Char) : Prop :=
  ∃ env, RELEASE_BUILD_REGEX.MatchAt cs i env b

/-- Membership form of scan soundness: every collected value is the selected
group of an actual match. -/
theorem litFindAllAux_mem {P : LitPattern} {f : List Char × List Char → List Char} :
    ∀ fuel cs v, v ∈ litFindAllAux P f fuel cs →
      ∃ i a b, P.MatchAt cs i a b ∧ v = f (a, b) := by
  intro fuel
  induction fuel with
  | zero => intro cs v h; exact absurd h (by simp [litFindAllAux])
  | succ fuel ih =>
    intro cs v h
    cases cs with
    | nil => exact absurd h (by simp [litFindAllAux])
    | cons c cs =>
      cases hm : P.matchAt (c :: cs) with
      | some abrest =>
        obtain ⟨⟨a, b⟩, rest⟩ := abrest
        have hsplit := (LitPattern.matchAt_sound hm).2.2.2.2
        simp only [litFindAllAux, hm, List.mem_cons] at h
        rcases h with h | h
        · exact ⟨0, a, b, LitPattern.matchAt_to_matchAt_zero hm, h⟩
        · obtain ⟨i, a', b', hM, hv⟩ := ih rest v h
          refine ⟨(P.inst a b).length + i, a', b', ?_, hv⟩
          rw [hsplit]
          exact LitPattern.matchAt_append_left hM
      | none =>
        simp only [litFindAllAux, hm] at h
        obtain ⟨i, a', b', hM, hv⟩ := ih cs v h
        exact ⟨i + 1, a', b', LitPattern.matchAt_cons hM, hv⟩

/-- The error raised by the release extractor (`ReleaseExtractorError` in the
source), split by raise site: non-200 login page, no script tags matched, no
build marker found in the main JS file. -/
inductive ReleaseExtractorError
  | unexpectedStatus (status : Nat) (reason : String)
  | noScriptTags
  | noBuildMarker
deriving DecidableEq

deriving instance DecidableEq for Except

/-- Group 1 of `SCRIPT_TAG_REGEX` (its only group): the hex hash run. -/
def scriptTagGroup : List Char × List Char → List Char := fun ab => ab.1

/-- Group 1 of `RELEASE_BUILD_REGEX` (its only group): the digit run. -/
def releaseBuildGroup : List Char × List Char → List Char := fun ab => ab.2

/-- `SCRIPT_TAG_REGEX.findall(body)` of the source. -/
def findall_script_tags (body : String) : List String :=
  (litFindAll SCRIPT_TAG_REGEX scriptTagGroup body.data).map (fun l => String.mk l)

/-- The hash-extraction step of `Poller.get_release_build_information`
(`cog.py`): run `findall`, and raise the extractor error when no script tag
matched. -/
def extract_asset_hashes (body : String) :
    Except ReleaseExtractorError (List String) :=
  let hashes := findall_script_tags body
  if hashes.isEmpty then .error .noScriptTags else .ok hashes

/-- `RELEASE_BUILD_REGEX.search(main)` of the source, returning group 1. -/
def search_release_build (main : String) : Option String :=
  (litSearch RELEASE_BUILD_REGEX releaseBuildGroup main.data).map (fun l => String.mk l)

/-- The build-id-extraction step of `Poller.get_release_build_information`
(`cog.py`): search for the build marker, raise the extractor error when it is
absent, return the numeric capture otherwise. -/
def extract_build_id (main : String) : Except ReleaseExtractorError String :=
  match search_release_build main with
  | some release_build => .ok release_build
  | none => .error .noBuildMarker

theorem scriptTag_findall_mem {cs v : List Char}
    (hv : v ∈ litFindAll SCRIPT_TAG_REGEX scriptTagGroup cs) :
    ∃ i, ScriptTagAt cs i v := by
  obtain ⟨i, a, b, hM, hveq⟩ := litFindAllAux_mem _ _ _ hv
  subst hveq
  exact ⟨i, b, hM⟩

theorem scriptTag_findall_ne_nil {cs : List Char}
    (h : ∃ i v, ScriptTagAt cs i v) :
    litFindAll SCRIPT_TAG_REGEX scriptTagGroup cs ≠ [] := by
  obtain ⟨i, v, inner, hM⟩ := h
  exact litFindAllAux_ne_nil SCRIPT_TAG_REGEX_exact scriptTagGroup
    cs.length cs i v inner le_rfl hM

theorem buildMarker_search_sound {cs v : List Char}
    (hs : litSearch RELEASE_BUILD_REGEX releaseBuildGroup cs = some v) :
    ∃ i, BuildMarkerAt cs i v := by
  obtain ⟨i, a, b, hM, hveq⟩ := litSearchAux_sound _ _ _ hs
  subst hveq
  exact ⟨i, a, hM⟩

theorem buildMarker_search_isSome {cs : List Char}
    (h : ∃ i b, BuildMarkerAt cs i b) :
    (litSearch RELEASE_BUILD_REGEX releaseBuildGroup cs).isSome := by
  obtain ⟨i, b, env, hM⟩ := h
  exact litSearchAux_isSome RELEASE_BUILD_REGEX_exact releaseBuildGroup
    cs.length cs i env b le_rfl hM

/-- Declarative specification of Python `re.findall` for pattern `P` with
group selector `f`: `l` is the list of selected groups of the successive
leftmost non-overlapping matches of `P` in the text.  The `nil` case requires
that no match exists at any offset; the `cons` case requires the text to
decompose as a match-free prefix, one full match, and a remainder on which
the scan continues. -/
inductive LitPattern.Findall (P : LitPattern) (f : List Char × List Char → List Char) :
    List Char → List (List Char) → Prop
  | nil (cs : List Char) (h : ∀ i a b, ¬ P.MatchAt cs i a b) : P.Findall f cs []
  | cons (pre a b rest : List Char) (l : List (List Char))
      (ha : a ≠ []) (hca : ∀ c ∈ a, P.cls1 c)
      (hb : b ≠ []) (hcb : ∀ c ∈ b, P.cls2 c)
      (hleft : ∀ j a' b', j < pre.length →
        ¬ P.MatchAt (pre ++ (P.inst a b ++ rest)) j a' b')
      (htail : P.Findall f rest l) :
      P.Findall f (pre ++ (P.inst a b ++ rest)) (f (a, b) :: l)

/-- A decomposition prefix-match-rest is a match at the prefix's length. -/
theorem LitPattern.matchAt_of_split {P : LitPattern} {pre a b rest : List Char}
    (ha : a ≠ []) (hca : ∀ c ∈ a, P.cls1 c)
    (hb : b ≠ []) (hcb : ∀ c ∈ b, P.cls2 c) :
    P.MatchAt (pre ++ (P.inst a b ++ rest)) pre.length a b := by
  refine ⟨ha, hca, hb, hcb, rest, ?_⟩
  have h := drop_length_add pre (P.inst a b ++ rest) 0
  simp only [Nat.add_zero, List.drop_zero] at h
  exact h

/-- For an exact pattern the groups of a match at a fixed offset are unique,
as is the remainder after the match. -/
theorem LitPattern.matchAt_zero_unique {P : LitPattern} (hP : P.Exact)
    {cs a b a' b' : List Char}
    (h1 : P.MatchAt cs 0 a b) (h2 : P.MatchAt cs 0 a' b') :
    a = a' ∧ b = b' := by
  obtain ⟨r, hr⟩ := LitPattern.matchAt_of_matchAt_zero hP h1
  obtain ⟨r', hr'⟩ := LitPattern.matchAt_of_matchAt_zero hP h2
  rw [hr] at hr'
  simp only [Option.some.injEq, Prod.mk.injEq] at hr'
  exact ⟨hr'.1.1, hr'.1.2⟩

/-- Prepending a character with no match at offset zero preserves the
`Findall` relation. -/
theorem LitPattern.findall_cons_no_match {P : LitPattern}
    {f : List Char × List Char → List Char} {c : Char} {cs : List Char}
    {l : List (List Char)}
    (h0 : ∀ a b, ¬ P.MatchAt (c :: cs) 0 a b)
    (h : P.Findall f cs l) : P.Findall f (c :: cs) l := by
  cases h with
  | nil cs0 hno =>
    apply LitPattern.Findall.nil
    intro i a b hM
    cases i with
    | zero => exact h0 a b hM
    | succ j => exact hno j a b (LitPattern.matchAt_cons_inv hM)
  | cons pre a b rest l' ha hca hb hcb hleft htail =>
    show P.Findall f ((c :: pre) ++ (P.inst a b ++ rest)) (f (a, b) :: l')
    refine LitPattern.Findall.cons (c :: pre) a b rest l' ha hca hb hcb ?_ htail
    intro j a' b' hj hM
    cases j with
    | zero => exact h0 a' b' hM
    | succ j' =>
      have hj' : j' < pre.length := by
        simp only [List.length_cons] at hj
        omega
      exact hleft j' a' b' hj' (LitPattern.matchAt_cons_inv hM)

/-- The executable scan satisfies the declarative `re.findall`
specification: it returns exactly the leftmost non-overlapping matches, in
document order. -/
theorem litFindAllAux_findall {P : LitPattern} (hP : P.Exact)
    (f : List Char × List Char → List Char) :
    ∀ fuel cs, cs.length ≤ fuel → P.Findall f cs (litFindAllAux P f fuel cs) := by
  intro fuel
  induction fuel with
  | zero =>
    intro cs hlen
    have hnil : cs = [] := List.eq_nil_of_length_eq_zero (Nat.le_zero.mp hlen)
    subst hnil
    exact LitPattern.Findall.nil [] (fun i a b => LitPattern.not_matchAt_nil hP)
  | succ fuel ih =>
    intro cs hlen
    cases cs with
    | nil =>
      exact LitPattern.Findall.nil [] (fun i a b => LitPattern.not_matchAt_nil hP)
    | cons c cs =>
      cases hm : P.matchAt (c :: cs) with
      | some abrest =>
        obtain ⟨⟨a, b⟩, rest⟩ := abrest
        obtain ⟨ha, hca, hb, hcb, hsplit⟩ := LitPattern.matchAt_sound hm
        have hlen' : rest.length ≤ fuel := by
          have hpos : 0 < (P.inst a b).length := LitPattern.inst_length_pos ha
          have hlcs : (c :: cs).length = (P.inst a b).length + rest.length := by
            rw [hsplit, List.length_append]
          simp only [List.length_cons] at hlcs hlen
          omega
        simp only [litFindAllAux, hm]
        rw [hsplit]
        exact LitPattern.Findall.cons [] a b rest _ ha hca hb hcb
          (fun j a' b' hj => absurd hj (by simp)) (ih rest hlen')
      | none =>
        simp only [litFindAllAux, hm]
        refine LitPattern.findall_cons_no_match ?_
          (ih cs (by simpa [Nat.succ_le_succ_iff] using hlen))
        intro a b hM
        obtain ⟨rest, hsome⟩ := LitPattern.matchAt_of_matchAt_zero hP hM
        rw [hm] at hsome
        exact absurd hsome (by simp)

/-- Inversion for `Findall` on a text decomposed at a leftmost match. -/
theorem LitPattern.findall_inversion {P : LitPattern} (hP : P.Exact)
    {f : List Char × List Char → List Char} {cs : List Char}
    {l' : List (List Char)} (h : P.Findall f cs l')
    {pre a b rest : List Char}
    (hcs : cs = pre ++ (P.inst a b ++ rest))
    (ha : a ≠ []) (hca : ∀ c ∈ a, P.cls1 c)
    (hb : b ≠ []) (hcb : ∀ c ∈ b, P.cls2 c)
    (hleft : ∀ j a' b', j < pre.length → ¬ P.MatchAt cs j a' b') :
    ∃ l'', l' = f (a, b) :: l'' ∧ P.Findall f rest l'' := by
  cases h with
  | nil cs0 hno =>
    refine absurd ?_ (hno pre.length a b)
    rw [hcs]
    exact LitPattern.matchAt_of_split ha hca hb hcb
  | cons pre' a' b' rest' l'' ha' hca' hb' hcb' hleft' htail' =>
    have hM' : P.MatchAt (pre' ++ (P.inst a' b' ++ rest')) pre'.length a' b' :=
      LitPattern.matchAt_of_split ha' hca' hb' hcb'
    have hM : P.MatchAt (pre' ++ (P.inst a' b' ++ rest')) pre.length a b := by
      rw [hcs]
      exact LitPattern.matchAt_of_split ha hca hb hcb
    have hlen1 : ¬ pre'.length < pre.length := fun hlt => hleft pre'.length a' b' hlt hM'
    have hlen2 : ¬ pre.length < pre'.length := fun hlt => hleft' pre.length a b hlt hM
    have hpp : pre' = pre ∧ P.inst a' b' ++ rest' = P.inst a b ++ rest :=
      List.append_inj hcs (by omega)
    obtain ⟨hpre, hrest⟩ := hpp
    have h0' : P.MatchAt (P.inst a' b' ++ rest') 0 a' b' :=
      ⟨ha', hca', hb', hcb', rest', by simp⟩
    have h0 : P.MatchAt (P.inst a' b' ++ rest') 0 a b := by
      rw [hrest]
      exact ⟨ha, hca, hb, hcb, rest, by simp⟩
    obtain ⟨haa, hbb⟩ := LitPattern.matchAt_zero_unique hP h0 h0'
    subst haa
    subst hbb
    have hrr : rest' = rest := List.append_cancel_left hrest
    subst hrr
    exact ⟨l'', rfl, htail'⟩

/-- `Findall` is deterministic: the leftmost non-overlapping match list of a
text is unique. -/
theorem LitPattern.findall_unique {P : LitPattern} (hP : P.Exact)
    {f : List Char × List Char → List Char} {cs : List Char}
    {l1 : List (List Char)} (h1 : P.Findall f cs l1) :
    ∀ l2, P.Findall f cs l2 → l1 = l2 := by
  induction h1 with
  | nil cs0 hno =>
    intro l2 h2
    cases h2 with
    | nil => rfl
    | cons pre a b rest l'' ha hca hb hcb hleft htail =>
      exact absurd (LitPattern.matchAt_of_split ha hca hb hcb) (hno pre.length a b)
  | cons pre a b rest l ha hca hb hcb hleft htail ih =>
    intro l2 h2
    obtain ⟨l'', hl2, htail2⟩ :=
      LitPattern.findall_inversion hP h2 rfl ha hca hb hcb hleft
    rw [hl2, ih l'' htail2]

/-- C2: for every entry-page HTML string, if hash extraction returns a list
it is nonempty, each returned hash is the capture of an actual
`SCRIPT_TAG_REGEX` match in the text, the matches sit at strictly increasing
offsets, and the list is exactly the `Findall` specification of the text —
the leftmost non-overlapping matches in document order, which the next
conjunct shows to be unique, so no match is omitted; if extraction fails, the
error is `NoScriptTags` (the only failure mode) and the text contains no
match at all — so any text with at least one match makes extraction
succeed. -/
theorem C2_extract_asset_hashes_spec (body : String) :
    (∀ l, extract_asset_hashes body = .ok l →
        l ≠ [] ∧ (∀ hsh ∈ l, ∃ i, ScriptTagAt body.data i hsh.data) ∧
        ∃ ps : List Nat, ps.length = l.length ∧ List.Chain' (· < ·) ps ∧
          ∀ q ∈ ps.zip (l.map String.data), ScriptTagAt body.data q.1 q.2)
    ∧ (∀ l, extract_asset_hashes body = .ok l →
        SCRIPT_TAG_REGEX.Findall scriptTagGroup body.data (l.map String.data))
    ∧ (∀ l1 l2, SCRIPT_TAG_REGEX.Findall scriptTagGroup body.data l1 →
        SCRIPT_TAG_REGEX.Findall scriptTagGroup body.data l2 → l1 = l2)
    ∧ (∀ e, extract_asset_hashes body = .error e →
        e = .noScriptTags ∧ ∀ i hsh, ¬ ScriptTagAt body.data i hsh)
    ∧ ((∃ i hsh, ScriptTagAt body.data i hsh) →
        ∃ l, extract_asset_hashes body = .ok l) := by
  have huniq : ∀ l1 l2, SCRIPT_TAG_REGEX.Findall scriptTagGroup body.data l1 →
      SCRIPT_TAG_REGEX.Findall scriptTagGroup body.data l2 → l1 = l2 :=
    fun l1 l2 h1 h2 => LitPattern.findall_unique SCRIPT_TAG_REGEX_exact h1 l2 h2
  have hfind : SCRIPT_TAG_REGEX.Findall scriptTagGroup body.data
      (litFindAll SCRIPT_TAG_REGEX scriptTagGroup body.data) :=
    litFindAllAux_findall SCRIPT_TAG_REGEX_exact scriptTagGroup
      body.data.length body.data le_rfl
  by_cases hr : litFindAll SCRIPT_TAG_REGEX scriptTagGroup body.data = []
  · have hex : extract_asset_hashes body = .error .noScriptTags := by
      simp [extract_asset_hashes, findall_script_tags, hr]
    refine ⟨?_, ?_, huniq, ?_, ?_⟩
    · intro l hl
      rw [hex] at hl
      exact absurd hl (by simp)
    · intro l hl
      rw [hex] at hl
      exact absurd hl (by simp)
    · intro e he
      rw [hex] at he
      refine ⟨by simpa using he.symm, ?_⟩
      intro i hsh hAt
      exact scriptTag_findall_ne_nil ⟨i, hsh, hAt⟩ hr
    · intro hmatch
      obtain ⟨i, hsh, hAt⟩ := hmatch
      exact absurd hr (scriptTag_findall_ne_nil ⟨i, hsh, hAt⟩)
  · have hex : extract_asset_hashes body
        = .ok ((litFindAll SCRIPT_TAG_REGEX scriptTagGroup body.data).map
            (fun l => String.mk l)) := by
      simp [extract_asset_hashes, findall_script_tags, hr]
    refine ⟨?_, ?_, huniq, ?_, ?_⟩
    · intro l hl
      rw [hex] at hl
      have hl' : l = (litFindAll SCRIPT_TAG_REGEX scriptTagGroup body.data).map
          (fun l => String.mk l) := by
        simpa using hl.symm
      subst hl'
      refine ⟨by simpa using hr, ?_, ?_⟩
      · intro hsh hmem
        obtain ⟨x, hx, hxe⟩ := List.mem_map.mp hmem
        subst hxe
        exact scriptTag_findall_mem hx
      · obtain ⟨ps, hlen, hchain, hmem⟩ :=
          litFindAllAux_sound SCRIPT_TAG_REGEX scriptTagGroup body.data.length body.data
        refine ⟨ps, by simpa [litFindAll] using hlen, hchain, ?_⟩
        intro q hq
        have hmap : ((litFindAll SCRIPT_TAG_REGEX scriptTagGroup body.data).map
            (fun l => String.mk l)).map String.data
            = litFindAll SCRIPT_TAG_REGEX scriptTagGroup body.data := by
          rw [List.map_map]
          have hid : (String.data ∘ fun l : List Char => String.mk l) = id :=
            funext (fun l => rfl)
          rw [hid, List.map_id]
        rw [hmap] at hq
        obtain ⟨a, b, hM, hqe⟩ := hmem q hq
        subst hqe
        exact ⟨b, hM⟩
    · intro l hl
      rw [hex] at hl
      have hl' : l = (litFindAll SCRIPT_TAG_REGEX scriptTagGroup body.data).map
          (fun l => String.mk l) := by
        simpa using hl.symm
      subst hl'
      have hmap : ((litFindAll SCRIPT_TAG_REGEX scriptTagGroup body.data).map
          (fun l => String.mk l)).map String.data
          = litFindAll SCRIPT_TAG_REGEX scriptTagGroup body.data := by
        rw [List.map_map]
        have hid : (String.data ∘ fun l : List Char => String.mk l) = id :=
          funext (fun l => rfl)
        rw [hid, List.map_id]
      rw [hmap]
      exact hfind
    · intro e he
      rw [hex] at he
      exact absurd he (by simp)
    · intro _
      exact ⟨_, hex⟩

/-- C3: for every JS source string, if build-id extraction succeeds the
returned string is verbatim the digit capture of an actual
`RELEASE_BUILD_REGEX` match in the text (so leading zeros are preserved); if
it fails, the error is `NoBuildMarker` (the only failure mode) and no match
exists — so any text containing the structural signature makes extraction
succeed. -/
theorem C3_extract_build_id_spec (js : String) :
    (∀ b, extract_build_id js = .ok b → ∃ i, BuildMarkerAt js.data i b.data)
    ∧ (∀ e, extract_build_id js = .error e →
        e = .noBuildMarker ∧ ∀ i b, ¬ BuildMarkerAt js.data i b)
    ∧ ((∃ i b, BuildMarkerAt js.data i b) → ∃ b, extract_build_id js = .ok b) := by
  cases hs : litSearch RELEASE_BUILD_REGEX releaseBuildGroup js.data with
  | some v =>
    have hex : extract_build_id js = .ok (String.mk v) := by
      simp [extract_build_id, search_release_build, hs]
    refine ⟨?_, ?_, ?_⟩
    · intro b hb
      rw [hex] at hb
      have : String.mk v = b := by simpa using hb
      subst this
      exact buildMarker_search_sound hs
    · intro e he
      rw [hex] at he
      exact absurd he (by simp)
    · intro _
      exact ⟨String.mk v, hex⟩
  | none =>
    have hex : extract_build_id js = .error .noBuildMarker := by
      simp [extract_build_id, search_release_build, hs]
    refine ⟨?_, ?_, ?_⟩
    · intro b hb
      rw [hex] at hb
      exact absurd hb (by simp)
    · intro e he
      rw [hex] at he
      refine ⟨by simpa using he.symm, ?_⟩
      intro i b hAt
      have := buildMarker_search_isSome ⟨i, b, hAt⟩
      rw [hs] at this
      exact absurd this (by simp)
    · intro hmatch
      have := buildMarker_search_isSome hmatch
      rw [hs] at this
      exact absurd this (by simp)

/-- Release channels monitored by the poller (`ReleaseChannel` enum in
`types.py`). -/
inductive ReleaseChannel
  | STABLE
  | PTB
  | CANARY
deriving DecidableEq

/-- The Python enum member name, as `channel.name` returns it. -/
def ReleaseChannel.name : ReleaseChannel → String
  | .STABLE => "STABLE"
  | .PTB => "PTB"
  | .CANARY => "CANARY"

/-- The extracted vendor/main hash pair (`ReleaseHashes` namedtuple). -/
structure ReleaseHashes where
  vendor : String
  main : String
deriving DecidableEq

/-- One observed build (`ReleaseBuildInfo` namedtuple) — the spec's
`BuildDescriptor`; `release_build` is the spec's `build_id` and `size` the
spec's `size_bytes`. -/
structure ReleaseBuildInfo where
  channel : ReleaseChannel
  hashes : ReleaseHashes
  release_build : String
  size : Nat
deriving DecidableEq

/-- In-memory image of the JSON object held by `JSONStorage` (`storage.py`):
an insertion-ordered key/value list, like a Python dict. -/
abbrev Storage := List (String × String)

/-- `dict.get(key)` with no default — `JSONStorage.get` forwards its
arguments to it. -/
def JSONStorage.get : Storage → String → Option String
  | [], _ => none
  | p :: st, key => if p.1 = key then some p.2 else JSONStorage.get st key

/-- `dict.get(key, default)` with a (possibly `None`) default. -/
def JSONStorage.getD (st : Storage) (key : String) (dflt : Option String) :
    Option String :=
  match JSONStorage.get st key with
  | some v => some v
  | none => dflt

/-- `JSONStorage.put` (`storage.py`): `self._data[key] = value` followed by a
durable save.  Dict assignment replaces the value in place when the key is
present (dict keys are unique) and appends otherwise; the returned storage is
the persisted state at the moment `put` returns. -/
def JSONStorage.put : Storage → String → String → Storage
  | [], key, value => [(key, value)]
  | p :: st, key, value =>
    if p.1 = key then (key, value) :: st else p :: JSONStorage.put st key value

theorem JSONStorage.get_put_self (st : Storage) (k v : String) :
    JSONStorage.get (JSONStorage.put st k v) k = some v := by
  induction st with
  | nil => simp [JSONStorage.get, JSONStorage.put]
  | cons p st ih =>
    by_cases h : p.1 = k
    · simp [JSONStorage.get, JSONStorage.put, h]
    · simp [JSONStorage.get, JSONStorage.put, h, ih]

theorem JSONStorage.get_put_ne (st : Storage) (k k' v : String) (h : k' ≠ k) :
    JSONStorage.get (JSONStorage.put st k v) k' = JSONStorage.get st k' := by
  have hk : ¬ k = k' := fun he => h he.symm
  induction st with
  | nil => simp [JSONStorage.get, JSONStorage.put, hk]
  | cons p st ih =>
    by_cases hp : p.1 = k
    · subst hp
      simp [JSONStorage.get, JSONStorage.put, hk]
    · simp only [JSONStorage.put, if_neg hp]
      by_cases hp' : p.1 = k'
      · simp [JSONStorage.get, hp']
      · simp [JSONStorage.get, hp', ih]

theorem JSONStorage.getD_none (st : Storage) (k : String) :
    JSONStorage.getD st k none = JSONStorage.get st k := by
  unfold JSONStorage.getD
  cases JSONStorage.get st k <;> rfl

/-- The spec's `track` decision: which branch `track` took. -/
inductive Decision
  | New
  | Stale
deriving DecidableEq

/-- Events dispatched on the bot event bus by the modelled core. -/
inductive BotEvent
  | new_build (release : ReleaseBuildInfo)
deriving DecidableEq

/-- Result of one `track` call: decision taken, persisted storage at return,
and dispatched events. -/
structure TrackResult where
  decision : Decision
  storage : Storage
  events : List BotEvent
deriving DecidableEq

/-- Python `str.lower()` on the ASCII enum names used here: lower-case every
character. -/
def pyLower (s : String) : String :=
  String.mk (s.data.map Char.toLower)

/-- The storage key computed by `track`:
`'last_release_' + release.channel.name.lower()`. -/
def trackKey (channel : ReleaseChannel) : String :=
  "last_release_" ++ pyLower channel.name

/-- `ReleaseTracker.track` (`types.py`): read the last persisted build id for
the channel (default `None`); when absent or different, persist the new id
and dispatch `new_build`; otherwise the build is stale and nothing happens. -/
def ReleaseTracker.track (st : Storage) (release : ReleaseBuildInfo) : TrackResult :=
  let key := trackKey release.channel
  let last_release := JSONStorage.getD st key none
  if last_release = none ∨ last_release ≠ some release.release_build then
    { decision := .New
      storage := JSONStorage.put st key release.release_build
      events := [.new_build release] }
  else
    { decision := .Stale, storage := st, events := [] }

/-- The branch condition of `track` is plain string disequality with the
stored value. -/
theorem track_cond (st : Storage) (r : ReleaseBuildInfo) :
    (JSONStorage.getD st (trackKey r.channel) none = none ∨
      JSONStorage.getD st (trackKey r.channel) none ≠ some r.release_build) ↔
    JSONStorage.get st (trackKey r.channel) ≠ some r.release_build := by
  rw [JSONStorage.getD_none]
  cases JSONStorage.get st (trackKey r.channel) <;> simp

theorem track_eq_new (st : Storage) (r : ReleaseBuildInfo)
    (h : JSONStorage.get st (trackKey r.channel) ≠ some r.release_build) :
    ReleaseTracker.track st r
      = { decision := .New
          storage := JSONStorage.put st (trackKey r.channel) r.release_build
          events := [.new_build r] } := by
  unfold ReleaseTracker.track
  rw [if_pos ((track_cond st r).mpr h)]

theorem track_eq_stale (st : Storage) (r : ReleaseBuildInfo)
    (h : JSONStorage.get st (trackKey r.channel) = some r.release_build) :
    ReleaseTracker.track st r = { decision := .Stale, storage := st, events := [] } := by
  unfold ReleaseTracker.track
  rw [if_neg (fun hc => ((track_cond st r).mp hc) h)]

/-- C1: `track` returns `New` exactly when the persisted build id for the
descriptor's channel is absent or differs, as an exact string, from the
descriptor's build id (no numeric comparison: any different string, including
a smaller number, is `New`); on `New` the new id is persisted in the returned
storage and exactly the fan-out event is dispatched; on `Stale` the storage
is returned untouched and no event is dispatched. -/
theorem C1_track_new_or_stale (st : Storage) (r : ReleaseBuildInfo) :
    ((ReleaseTracker.track st r).decision = .New ↔
      JSONStorage.get st (trackKey r.channel) ≠ some r.release_build)
    ∧ ((ReleaseTracker.track st r).decision = .New →
        JSONStorage.get (ReleaseTracker.track st r).storage (trackKey r.channel)
          = some r.release_build
        ∧ (ReleaseTracker.track st r).events = [.new_build r])
    ∧ ((ReleaseTracker.track st r).decision = .Stale →
        (ReleaseTracker.track st r).storage = st
        ∧ (ReleaseTracker.track st r).events = []) := by
  by_cases h : JSONStorage.get st (trackKey r.channel) = some r.release_build
  · rw [track_eq_stale st r h]
    refine ⟨by simpa using h, by simp, by simp⟩
  · rw [track_eq_new st r h]
    refine ⟨by simpa using h, ?_, by simp⟩
    intro _
    exact ⟨JSONStorage.get_put_self .., rfl⟩

/-- C4: when the stored build id for the descriptor's channel is not the
descriptor's build id, two successive `track` calls with the same descriptor
decide `New` then `Stale`, and after both calls the persisted value at the
channel's key is the descriptor's build id. -/
theorem C4_track_twice (st : Storage) (r : ReleaseBuildInfo)
    (h : JSONStorage.get st (trackKey r.channel) ≠ some r.release_build) :
    (ReleaseTracker.track st r).decision = .New
    ∧ (ReleaseTracker.track (ReleaseTracker.track st r).storage r).decision = .Stale
    ∧ JSONStorage.get
        (ReleaseTracker.track (ReleaseTracker.track st r).storage r).storage
        (trackKey r.channel) = some r.release_build := by
  have hget : JSONStorage.get (ReleaseTracker.track st r).storage (trackKey r.channel)
      = some r.release_build := by
    rw [track_eq_new st r h]
    exact JSONStorage.get_put_self ..
  have ht2 := track_eq_stale (ReleaseTracker.track st r).storage r hget
  refine ⟨by rw [track_eq_new st r h], by rw [ht2], ?_⟩
  rw [ht2]
  exact hget

/-- C5: `track` for a descriptor touches only the key
`last_release_{channel_lowercase}`: any other key reads back unchanged after
`track`, the decision and events depend only on the stored value at that one
key, distinct channels have distinct keys, and the key for each channel is
exactly the lowercase-suffixed literal. -/
theorem C5_track_key_isolation (st st' : Storage) (r : ReleaseBuildInfo)
    (k : String) (A B : ReleaseChannel) :
    (k ≠ trackKey r.channel →
      JSONStorage.get (ReleaseTracker.track st r).storage k = JSONStorage.get st k)
    ∧ (JSONStorage.get st (trackKey r.channel)
          = JSONStorage.get st' (trackKey r.channel) →
        (ReleaseTracker.track st r).decision = (ReleaseTracker.track st' r).decision
        ∧ (ReleaseTracker.track st r).events = (ReleaseTracker.track st' r).events)
    ∧ (A ≠ B → trackKey A ≠ trackKey B)
    ∧ (trackKey .STABLE = "last_release_stable"
        ∧ trackKey .PTB = "last_release_ptb"
        ∧ trackKey .CANARY = "last_release_canary") := by
  refine ⟨?_, ?_, ?_, by decide, by decide, by decide⟩
  · intro hk
    by_cases h : JSONStorage.get st (trackKey r.channel) = some r.release_build
    · rw [track_eq_stale st r h]
    · rw [track_eq_new st r h]
      exact JSONStorage.get_put_ne st (trackKey r.channel) k r.release_build hk
  · intro hsame
    by_cases h : JSONStorage.get st (trackKey r.channel) = some r.release_build
    · rw [track_eq_stale st r h, track_eq_stale st' r (hsame ▸ h)]
      exact ⟨rfl, rfl⟩
    · rw [track_eq_new st r h, track_eq_new st' r (hsame ▸ h)]
      exact ⟨rfl, rfl⟩
  · intro hAB
    cases A <;> cases B <;> first
      | exact absurd rfl hAB
      | decide

/-- C10: the storage model satisfies put/get round-trip and frame: after
`put k v`, `get k` yields `v` and every other key reads as before; `get` is a
pure read whose optional default is returned exactly when the key is absent. -/
theorem C10_storage_put_get (st : Storage) (k k' v : String) (d : Option String) :
    JSONStorage.get (JSONStorage.put st k v) k = some v
    ∧ (k' ≠ k → JSONStorage.get (JSONStorage.put st k v) k' = JSONStorage.get st k')
    ∧ (JSONStorage.get st k = none → JSONStorage.getD st k d = d)
    ∧ (∀ v0, JSONStorage.get st k = some v0 → JSONStorage.getD st k d = some v0) := by
  refine ⟨JSONStorage.get_put_self .., fun h => JSONStorage.get_put_ne st k k' v h, ?_, ?_⟩
  · intro h
    unfold JSONStorage.getD
    rw [h]
  · intro v0 h
    unfold JSONStorage.getD
    rw [h]

theorem string_eq_of_data {a b : String} (h : a.data = b.data) : a = b := by
  cases a
  cases b
  exact congrArg String.mk h

theorem string_data_append (a b : String) : (a ++ b).data = a.data ++ b.data := rfl

theorem string_append_assoc (a b c : String) : a ++ b ++ c = a ++ (b ++ c) :=
  string_eq_of_data (by simp [string_data_append])

/-- `Poller.get_login_page` (`cog.py`): fill the channel-name slot of the
login-page URL template with the empty string for the stable channel and the
lowercase channel name plus a dot otherwise. -/
def get_login_page (channel : ReleaseChannel) : String :=
  if channel = .STABLE then
    "https://" ++ "" ++ "discordapp.com/login"
  else
    "https://" ++ (pyLower channel.name ++ ".") ++ "discordapp.com/login"

/-- `Poller.get_asset_url` (`cog.py`): same subdomain rule, asset path with
the hash filled in. -/
def get_asset_url (channel : ReleaseChannel) (asset_hash : String) : String :=
  if channel = .STABLE then
    "https://" ++ "" ++ "discordapp.com/assets/" ++ asset_hash ++ ".js"
  else
    "https://" ++ (pyLower channel.name ++ ".") ++ "discordapp.com/assets/"
      ++ asset_hash ++ ".js"

/-- Modelled from the spec wording of the URL rule: `{subdomain}` is the
empty string for the primary (stable) channel and the channel's lowercase
name followed by a dot for every other channel. -/
def specSubdomain (channel : ReleaseChannel) : String :=
  if channel = .STABLE then "" else pyLower channel.name ++ "."

/-- C8: for every channel and asset hash, the entry-page URL is
`https://{subdomain}discordapp.com/login` and the asset URL is
`https://{subdomain}discordapp.com/assets/{hash}.js`, where the subdomain is
empty exactly for the stable channel and the lowercase channel name followed
by a dot otherwise (concretely: empty, `ptb.`, `canary.`). -/
theorem C8_url_derivation (channel : ReleaseChannel) (asset_hash : String) :
    get_login_page channel
      = "https://" ++ specSubdomain channel ++ "discordapp.com/login"
    ∧ get_asset_url channel asset_hash
      = "https://" ++ specSubdomain channel ++ "discordapp.com/assets/"
          ++ asset_hash ++ ".js"
    ∧ specSubdomain .STABLE = "" ∧ specSubdomain .PTB = "ptb."
    ∧ specSubdomain .CANARY = "canary." := by
  refine ⟨?_, ?_, by decide, by decide, by decide⟩ <;>
    cases channel <;> rfl

/-- Outcome of the pure core of `Poller.get_release_build_information`:
either a built descriptor, a raised `ReleaseExtractorError`, or the uncaught
Python `IndexError` from `hashes[1]` when exactly one script tag matches. -/
inductive FetchResult
  | ok (info : ReleaseBuildInfo)
  | extractorError (e : ReleaseExtractorError)
  | indexError
deriving DecidableEq

/-- `Poller.get_release_build_information` (`cog.py`) with the network
replaced by its observed data: the login response status line and body, and
the main-asset body.  Non-200 raises; the script-tag hashes are collected by
`findall` (raising when none match); `vendor` is `hashes[0]` and `main` is
`hashes[1]`; the main asset's decoded text length is recorded as the size;
the build id is searched in the asset body (raising when absent). -/
def get_release_build_information (channel : ReleaseChannel) (status : Nat)
    (reason : String) (loginBody assetBody : String) : FetchResult :=
  if status ≠ 200 then .extractorError (.unexpectedStatus status reason)
  else
    match findall_script_tags loginBody with
    | [] => .extractorError .noScriptTags
    | [_] => .indexError
    | vendor :: main :: _ =>
      let release_hashes : ReleaseHashes := { vendor := vendor, main := main }
      let size := assetBody.length
      match search_release_build assetBody with
      | none => .extractorError .noBuildMarker
      | some release_build =>
        .ok { channel := channel, hashes := release_hashes
              release_build := release_build, size := size }

theorem utf8Size_of_ascii {c : Char} (h : c.toNat ≤ 127) : c.utf8Size = 1 := by
  have hle : c.val ≤ UInt32.ofNatCore 0x7F (by decide) := by
    rw [UInt32.le_def]
    exact h
  simp only [Char.utf8Size]
  rw [if_pos hle]

theorem utf8ByteSize_of_ascii (s : String) (h : ∀ c ∈ s.data, c.toNat ≤ 127) :
    s.utf8ByteSize = s.length := by
  cases s with
  | mk data =>
    simp only [String.length]
    induction data with
    | nil => rfl
    | cons c cs ih =>
      have hc : c.utf8Size = 1 := utf8Size_of_ascii (h c (by simp))
      have ih' := ih (fun c hc => h c (by simp [hc]))
      simp [String.utf8ByteSize, String.utf8ByteSize.go, hc] at ih' ⊢
      omega

/-- C9 (amended): for every successful fetch, the recorded size is the number
of characters (code points) of the decoded main-asset body — which equals its
UTF-8 byte length whenever the body is ASCII, as in the spec's end-to-end
scenario. -/
theorem C9_size_is_code_point_count (channel : ReleaseChannel) (status : Nat)
    (reason : String) (loginBody assetBody : String) (info : ReleaseBuildInfo)
    (h : get_release_build_information channel status reason loginBody assetBody
        = .ok info) :
    info.size = assetBody.length
    ∧ ((∀ c ∈ assetBody.data, c.toNat ≤ 127) →
        info.size = assetBody.utf8ByteSize) := by
  unfold get_release_build_information at h
  by_cases hs : status ≠ 200
  · rw [if_pos hs] at h
    exact absurd h (by simp)
  · rw [if_neg hs] at h
    cases hf : findall_script_tags loginBody with
    | nil =>
      rw [hf] at h
      exact absurd h (by simp)
    | cons vendor tl =>
      cases tl with
      | nil =>
        rw [hf] at h
        exact absurd h (by simp)
      | cons main tl2 =>
        rw [hf] at h
        simp only at h
        cases hb : search_release_build assetBody with
        | none =>
          rw [hb] at h
          exact absurd h (by simp)
        | some release_build =>
          rw [hb] at h
          simp only [FetchResult.ok.injEq] at h
          subst h
          refine ⟨rfl, ?_⟩
          intro ha
          exact (utf8ByteSize_of_ascii assetBody ha).symm

/-- Entry-page body of the spec's end-to-end scenario: two script tags with
hashes `abc123` and `def456`. -/
def loginPageBodyEx : String :=
  "<script src=\"/assets/abc123.js\" defer></script>" ++
    "<script src=\"/assets/def456.js\" defer></script>"

/-- A main-asset body containing the release marker and one non-ASCII
character: 51 characters long, 52 bytes in UTF-8. -/
def assetBodyNonAscii : String :=
  "\x7benvironment:\"production\",release:\"987654321\",ign é"

/-- The descriptor the fetch builds from `assetBodyNonAscii`. -/
def infoNonAscii : ReleaseBuildInfo :=
  { channel := .STABLE
    hashes := { vendor := "abc123", main := "def456" }
    release_build := "987654321"
    size := assetBodyNonAscii.length }

/-- C9 (counterexample): a successful fetch whose recorded size (51, the
character count of the decoded body) differs from the byte length of the
fetched body (52): `size_bytes` is not the byte length in general. -/
theorem C9_size_not_byte_length :
    get_release_build_information .STABLE 200 "OK" loginPageBodyEx assetBodyNonAscii
      = .ok infoNonAscii
    ∧ infoNonAscii.size = 51
    ∧ assetBodyNonAscii.utf8ByteSize = 52
    ∧ infoNonAscii.size ≠ assetBodyNonAscii.utf8ByteSize := by
  refine ⟨by decide, by decide, by decide, by decide⟩

/-- An all-ASCII main-asset body of exactly 42 characters (and 42 bytes)
containing the release marker with build id `9`. -/
def assetBody42 : String :=
  "\x7benvironment:\"production\",release:\"9\",ignZ"

/-- The descriptor the fetch builds from `assetBody42`. -/
def info42 : ReleaseBuildInfo :=
  { channel := .STABLE
    hashes := { vendor := "abc123", main := "def456" }
    release_build := "9"
    size := 42 }

/-- C9 (witness): on the 42-byte ASCII scenario body the amended theorem
applies and the recorded size equals the UTF-8 byte length, 42. -/
theorem C9_size_witness :
    info42.size = assetBody42.utf8ByteSize ∧ assetBody42.utf8ByteSize = 42 :=
  ⟨(C9_size_is_code_point_count .STABLE 200 "OK" loginPageBodyEx assetBody42 info42
      (by decide)).2 (by decide), by decide⟩

/-- What one iteration's `try` block observes: a successful fetch, a raised
`ReleaseExtractorError`, an `asyncio.TimeoutError`, or an
`aiohttp.ClientError`. -/
inductive PollOutcome
  | success (info : ReleaseBuildInfo)
  | extractorFailure (e : ReleaseExtractorError)
  | timeout
  | clientFailure
deriving DecidableEq

/-- Observable step of the polling loop. -/
inductive PollerEvent
  | build_polled (info : ReleaseBuildInfo)
  | new_build (info : ReleaseBuildInfo)
  | sleep (seconds : Nat)
deriving DecidableEq

/-- Log lines the loop emits on the caught conditions: `log.exception` for a
`ReleaseExtractorError` or an `aiohttp.ClientError`, `log.warning` for an
`asyncio.TimeoutError`. -/
inductive PollerLogEntry
  | extractorErrorLogged (e : ReleaseExtractorError)
  | timeoutLogged
  | clientErrorLogged
deriving DecidableEq

/-- Trace of a poller run: emitted events, the warning/exception log lines,
tracker storage at the end, whether the coroutine finished (the task is
done), and the value `task.exception()` reports once done.  The loop catches
`ReleaseExtractorError` and `aiohttp.ClientError` and only logs them before
`break`, so the coroutine returns normally and the task stores no
exception. -/
structure PollRun where
  events : List PollerEvent
  logs : List PollerLogEntry
  storage : Storage
  done : Bool
  task_exception : Option ReleaseExtractorError
deriving DecidableEq

/-- `Poller._make_poller._poll` (`cog.py`), driven by the sequence of fetch
outcomes: on success dispatch `build_polled`, run the tracker (which may
dispatch `new_build`), sleep one poll interval and continue; on a
`ReleaseExtractorError` or an `aiohttp.ClientError` log the exception and
`break` — the coroutine returns, so the task completes with
`task.exception()` equal to `None` and the error survives only in the log;
on `asyncio.TimeoutError` log a warning and `continue`, retrying
immediately. -/
def poll_loop (interval : Nat) (st : Storage) : List PollOutcome → PollRun
  | [] => { events := [], logs := [], storage := st
            done := false, task_exception := none }
  | o :: os =>
    match o with
    | .success info =>
      let tr := ReleaseTracker.track st info
      let trackedEvents := tr.events.map (fun e =>
        match e with | .new_build i => PollerEvent.new_build i)
      let rest := poll_loop interval tr.storage os
      { events := .build_polled info :: (trackedEvents ++ (.sleep interval :: rest.events))
        logs := rest.logs
        storage := rest.storage
        done := rest.done
        task_exception := rest.task_exception }
    | .extractorFailure e =>
      { events := [], logs := [.extractorErrorLogged e], storage := st
        done := true, task_exception := none }
    | .timeout =>
      let rest := poll_loop interval st os
      { events := rest.events
        logs := .timeoutLogged :: rest.logs
        storage := rest.storage
        done := rest.done
        task_exception := rest.task_exception }
    | .clientFailure =>
      { events := [], logs := [.clientErrorLogged], storage := st
        done := true, task_exception := none }

/-- C6 (counterexample): an iteration hitting a `ReleaseExtractorError` does
terminate the task, but the error is caught and only logged — the finished
task stores no exception (`task.exception()` is `None`), so the claim's
"error stored for inspection" fails on this concrete run. -/
theorem C6_error_not_stored :
    (poll_loop 60 [] [.extractorFailure .noScriptTags]).done = true
    ∧ (poll_loop 60 [] [.extractorFailure .noScriptTags]).task_exception = none
    ∧ (poll_loop 60 [] [.extractorFailure .noScriptTags]).logs
        = [.extractorErrorLogged .noScriptTags] :=
  ⟨rfl, rfl, rfl⟩

/-- C6 (amended): an `asyncio.TimeoutError` makes the loop retry at once —
the run is the run of the remaining iterations with only a warning log line
added: no sleep, no termination — while a `ReleaseExtractorError` or an
`aiohttp.ClientError` makes the loop log the error and exit immediately,
emitting no events and consuming no further outcomes: the task is done
(terminal, no automatic restart) but completes normally with no stored
exception, the error being observable only in the log; a successful
iteration, by contrast, sleeps one poll interval before continuing. -/
theorem C6_poll_loop_logged_policy (interval : Nat) (st : Storage)
    (os : List PollOutcome) (e : ReleaseExtractorError) (info : ReleaseBuildInfo) :
    poll_loop interval st (.timeout :: os)
      = { events := (poll_loop interval st os).events
          logs := .timeoutLogged :: (poll_loop interval st os).logs
          storage := (poll_loop interval st os).storage
          done := (poll_loop interval st os).done
          task_exception := (poll_loop interval st os).task_exception }
    ∧ poll_loop interval st (.extractorFailure e :: os)
        = { events := [], logs := [.extractorErrorLogged e], storage := st
            done := true, task_exception := none }
    ∧ poll_loop interval st (.clientFailure :: os)
        = { events := [], logs := [.clientErrorLogged], storage := st
            done := true, task_exception := none }
    ∧ PollerEvent.sleep interval ∈ (poll_loop interval st (.success info :: os)).events :=
  ⟨rfl, rfl, rfl, by simp [poll_loop]⟩

/-- Result of one `channel.send` attempt: delivered, or a
`discord.HTTPException` (unreachable, forbidden, not found or any other
transport error) raised by the send and caught by the notifier. -/
inductive SendOutcome
  | delivered
  | httpError
deriving DecidableEq

/-- `Notifier.on_new_build` (`notifier.py`), with the configured feeds, the
bot's channel cache (`resolve`) and the transport behaviour (`send`) passed
in.  Feed entries are visited in order; an entry whose channel id does not
resolve, or whose subscription list does not contain the build's lowercase
channel name, is skipped; every remaining entry gets exactly one send
attempt, and an `HTTPException` from the send is caught and logged.  The
returned list is the attempts in order; the call itself always returns
normally. -/
def on_new_build (feeds : List (Nat × List String)) (resolve : Nat → Bool)
    (send : Nat → SendOutcome) (release : ReleaseBuildInfo) :
    List (Nat × SendOutcome) :=
  feeds.filterMap (fun entry =>
    if ¬ resolve entry.1 then none
    else if pyLower release.channel.name ∉ entry.2 then none
    else some (entry.1, send entry.1))

/-- The destinations attempted by `on_new_build` do not depend on how the
individual sends turn out: a failed delivery never suppresses later
attempts. -/
theorem on_new_build_ids_independent (feeds : List (Nat × List String))
    (resolve : Nat → Bool) (send send' : Nat → SendOutcome)
    (release : ReleaseBuildInfo) :
    (on_new_build feeds resolve send release).map Prod.fst
      = (on_new_build feeds resolve send' release).map Prod.fst := by
  induction feeds with
  | nil => rfl
  | cons entry feeds ih =>
    by_cases h1 : resolve entry.1
    · by_cases h2 : pyLower release.channel.name ∈ entry.2
      · simp [on_new_build, h1, h2] at ih ⊢
        exact ih
      · simp [on_new_build, h1, h2] at ih ⊢
        exact ih
    · simp [on_new_build, h1] at ih ⊢
      exact ih

theorem on_new_build_not_mem (feeds : List (Nat × List String))
    (resolve : Nat → Bool) (send : Nat → SendOutcome)
    (release : ReleaseBuildInfo) (cid : Nat)
    (h : cid ∉ feeds.map Prod.fst) :
    cid ∉ (on_new_build feeds resolve send release).map Prod.fst := by
  induction feeds with
  | nil => simp [on_new_build]
  | cons entry feeds ih =>
    simp only [List.map_cons, List.mem_cons, not_or] at h
    obtain ⟨h1', h2'⟩ := h
    have ih' := ih h2'
    by_cases h1 : resolve entry.1
    · by_cases h2 : pyLower release.channel.name ∈ entry.2
      · simp only [on_new_build, List.filterMap_cons, h1, h2] at ih' ⊢
        simp_all [not_or]
        exact ih'
      · simp only [on_new_build, List.filterMap_cons, h1, h2] at ih' ⊢
        simp_all
        exact ih'
    · simp only [on_new_build, List.filterMap_cons, h1] at ih' ⊢
      simp_all
      exact ih'

/-- C7: over any feed configuration with distinct destination ids, every
registered destination that resolves and whose subscription list contains the
build's channel name receives exactly one delivery attempt, and the ordered
list of attempted destinations is the same whatever the individual sends do —
a failed delivery (caught `HTTPException`) never suppresses the remaining
attempts, and the call returns normally in every case. -/
theorem C7_notify_fanout (feeds : List (Nat × List String)) (resolve : Nat → Bool)
    (send send' : Nat → SendOutcome) (release : ReleaseBuildInfo)
    (cid : Nat) (subs : List String)
    (hnodup : (feeds.map Prod.fst).Nodup)
    (hmem : (cid, subs) ∈ feeds)
    (hres : resolve cid = true)
    (hsub : pyLower release.channel.name ∈ subs) :
    ((on_new_build feeds resolve send release).map Prod.fst).count cid = 1
    ∧ (on_new_build feeds resolve send release).map Prod.fst
        = (on_new_build feeds resolve send' release).map Prod.fst := by
  refine ⟨?_, on_new_build_ids_independent feeds resolve send send' release⟩
  induction feeds with
  | nil => cases hmem
  | cons entry feeds ih =>
    simp only [List.map_cons, List.nodup_cons] at hnodup
    obtain ⟨hhead, htail⟩ := hnodup
    rcases List.mem_cons.mp hmem with heq | hmem'
    · have hent : entry = (cid, subs) := heq.symm
      subst hent
      have hkeep : on_new_build ((cid, subs) :: feeds) resolve send release
          = (cid, send cid) :: on_new_build feeds resolve send release := by
        simp [on_new_build, List.filterMap_cons, hres, hsub]
      rw [hkeep]
      have hnot : cid ∉ (on_new_build feeds resolve send release).map Prod.fst :=
        on_new_build_not_mem feeds resolve send release cid (by simpa using hhead)
      simp [List.count_cons, List.count_eq_zero.mpr hnot]
    · have hne : entry.1 ≠ cid := by
        intro he
        exact hhead (he ▸ List.mem_map.mpr ⟨(cid, subs), hmem', rfl⟩)
      have ih' := ih htail hmem'
      by_cases h1 : resolve entry.1
      · by_cases h2 : pyLower release.channel.name ∈ entry.2
        · have hkeep : on_new_build (entry :: feeds) resolve send release
              = (entry.1, send entry.1) :: on_new_build feeds resolve send release := by
            simp [on_new_build, List.filterMap_cons, h1, h2]
          rw [hkeep]
          simp [List.count_cons, hne, ih']
        · have hskip : on_new_build (entry :: feeds) resolve send release
              = on_new_build feeds resolve send release := by
            simp [on_new_build, List.filterMap_cons, h1, h2]
          rw [hskip]
          exact ih'
      · have hskip : on_new_build (entry :: feeds) resolve send release
            = on_new_build feeds resolve send release := by
          simp [on_new_build, List.filterMap_cons, h1]
        rw [hskip]
        exact ih'

/-- A canary descriptor whose build id `99` is numerically smaller than the
stored `100` — the rollback case. -/
def rEx : ReleaseBuildInfo :=
  { channel := .CANARY
    hashes := { vendor := "aaa111", main := "bbb222" }
    release_build := "99"
    size := 10 }

/-- Storage holding build `100` for canary. -/
def stEx : Storage := [("last_release_canary", "100")]

/-- C1 (witness): a decreasing build id that differs from the stored value is
`New` and dispatches the fan-out event. -/
theorem C1_track_witness :
    (ReleaseTracker.track stEx rEx).decision = .New
    ∧ (ReleaseTracker.track stEx rEx).events = [.new_build rEx] := by
  have h := C1_track_new_or_stale stEx rEx
  exact ⟨h.1.mpr (by decide), (h.2.1 (h.1.mpr (by decide))).2⟩

/-- C2 (witness): the scenario entry page contains a script-tag match, so
extraction succeeds on it. -/
theorem C2_extract_witness : ∃ l, extract_asset_hashes loginPageBodyEx = .ok l :=
  (C2_extract_asset_hashes_spec loginPageBodyEx).2.2.2.2
    ⟨0, "abc123".data, "defer".data, by decide, by decide, by decide, by decide,
      "<script src=\"/assets/def456.js\" defer></script>".data, by decide⟩

/-- A JS body that is exactly one release marker whose build id has leading
zeros. -/
def jsBody007 : String := "\x7benvironment:\"canary\",release:\"007\",ign"

/-- C3 (witness): a marker with a leading-zero build id makes extraction
succeed, returning the capture verbatim as `007`. -/
theorem C3_extract_witness :
    (∃ b, extract_build_id jsBody007 = .ok b)
    ∧ extract_build_id jsBody007 = .ok "007" :=
  ⟨(C3_extract_build_id_spec jsBody007).2.2
      ⟨0, "007".data, "canary".data, by decide, by decide, by decide, by decide,
        [], by decide⟩,
    by decide⟩

/-- C4 (witness): tracking the canary descriptor twice from empty storage
gives `New` then `Stale` and leaves its build id persisted. -/
theorem C4_track_twice_witness :
    (ReleaseTracker.track [] rEx).decision = .New
    ∧ (ReleaseTracker.track (ReleaseTracker.track [] rEx).storage rEx).decision = .Stale
    ∧ JSONStorage.get
        (ReleaseTracker.track (ReleaseTracker.track [] rEx).storage rEx).storage
        (trackKey rEx.channel) = some rEx.release_build :=
  C4_track_twice [] rEx (by decide)

/-- C5 (witness): tracking a canary build leaves the stable key untouched,
and the stable and canary keys differ. -/
theorem C5_isolation_witness :
    JSONStorage.get (ReleaseTracker.track stEx rEx).storage "last_release_stable"
      = JSONStorage.get stEx "last_release_stable"
    ∧ trackKey .STABLE ≠ trackKey .CANARY :=
  ⟨(C5_track_key_isolation stEx stEx rEx "last_release_stable" .STABLE .CANARY).1
      (by decide),
    (C5_track_key_isolation stEx stEx rEx "last_release_stable" .STABLE .CANARY).2.2.1
      (by decide)⟩

/-- Three configured feeds: destination 1 and 2 subscribe to stable,
destination 3 to PTB only. -/
def feedsEx : List (Nat × List String) := [(1, ["stable"]), (2, ["canary", "stable"]), (3, ["ptb"])]

/-- Transport where destination 1 fails with an HTTPException. -/
def sendFailFirst : Nat → SendOutcome := fun n => if n = 1 then .httpError else .delivered

/-- Transport where every send succeeds. -/
def sendAllOk : Nat → SendOutcome := fun _ => .delivered

/-- A stable build being fanned out. -/
def rStable : ReleaseBuildInfo :=
  { channel := .STABLE
    hashes := { vendor := "v1", main := "m1" }
    release_build := "101"
    size := 7 }

/-- C7 (witness): with destination 1 failing, destination 2 still receives
exactly one attempt, and the attempted destinations are the same as when
every send succeeds. -/
theorem C7_notify_witness :
    ((on_new_build feedsEx (fun _ => true) sendFailFirst rStable).map Prod.fst).count 2 = 1
    ∧ (on_new_build feedsEx (fun _ => true) sendFailFirst rStable).map Prod.fst
        = (on_new_build feedsEx (fun _ => true) sendAllOk rStable).map Prod.fst :=
  C7_notify_fanout feedsEx (fun _ => true) sendFailFirst sendAllOk rStable 2
    ["canary", "stable"] (by decide) (by decide) (by decide) (by decide)

/-- C10 (witness): put/get round trip and frame on a one-entry store. -/
theorem C10_storage_witness :
    JSONStorage.get (JSONStorage.put [("a", "1")] "b" "2") "b" = some "2"
    ∧ JSONStorage.get (JSONStorage.put [("a", "1")] "b" "2") "a"
        = JSONStorage.get [("a", "1")] "a" :=
  ⟨(C10_storage_put_get [("a", "1")] "b" "a" "2" none).1,
    (C10_storage_put_get [("a", "1")] "b" "a" "2" none).2.1 (by decide)⟩
